import Mathlib

/-!
Verification of `src/game_state.py`: the `GameState` base contract and the
`SubtractSquareGameState` implementation of the Subtract Square game.

Modelling conventions (shallow embedding):
* Python `int` is `Int` (arbitrary precision, no overflow).
* Python `str` values are modelled as `List Char`.
* A Python call that raises is modelled with `Option`: `none` means the call
  raises, `some v` means it returns `v`.
* The expression `int(self.current_value ** 0.5)` from `get_possible_moves`
  (line 104): for `current_value ≥ 0` the float exponentiation followed by
  `int` truncation computes the integer square root, modelled exactly by
  `floor_sqrt`; for negative `current_value`, `current_value ** 0.5` is a
  complex number in Python 3 and `int(...)` raises `TypeError`, modelled as
  `none` (see `get_possible_moves`).
-/

/-- Largest `k` with `k * k ≤ n`: the value of `int(n ** 0.5)` for a
nonnegative Python int `n` (float exponentiation modelled as exact). -/
def floor_sqrt (n : Nat) : Nat := Nat.findGreatest (fun k => k * k ≤ n) n

/-- Characterization of `floor_sqrt`: `k ≤ floor_sqrt n` exactly when
`k * k ≤ n`. -/
theorem le_floor_sqrt (k n : Nat) : k ≤ floor_sqrt n ↔ k * k ≤ n := by
  constructor
  · intro h
    have hP : floor_sqrt n * floor_sqrt n ≤ n :=
      Nat.findGreatest_spec (P := fun k => k * k ≤ n) (Nat.zero_le n) (by simp)
    calc k * k ≤ floor_sqrt n * floor_sqrt n := Nat.mul_le_mul h h
      _ ≤ n := hP
  · intro h
    rcases Nat.eq_zero_or_pos k with h0 | h0
    · simp [h0]
    · exact Nat.le_findGreatest (le_trans (Nat.le_mul_of_pos_left k h0) h) h

namespace GameState

/-- Score constant `GameState.WIN` (line 19). -/
def WIN : Int := 1

/-- Score constant `GameState.LOSE` (line 20). -/
def LOSE : Int := -1

/-- Score constant `GameState.DRAW` (line 21). -/
def DRAW : Int := 0

end GameState

/-- State of the Subtract Square game (`SubtractSquareGameState.__init__`,
lines 85-91): the inherited turn flag `p1_turn` together with the remaining
total `current_value`. -/
structure SubtractSquareGameState where
  p1_turn : Bool
  current_value : Int
deriving DecidableEq

namespace SubtractSquareGameState

/-- Embeds `SubtractSquareGameState.get_possible_moves` (lines 99-104):
`[i * i for i in range(1, int(self.current_value ** 0.5) + 1)]`.
For `current_value ≥ 0` this is the squares `1*1, ..., r*r` with
`r = floor_sqrt current_value`; for negative `current_value` the call raises
(`int` of a complex number), modelled as `none`. -/
def get_possible_moves (s : SubtractSquareGameState) : Option (List Int) :=
  if s.current_value < 0 then none
  else some ((List.range (floor_sqrt s.current_value.toNat)).map
    (fun i : Nat => ((i + 1) * (i + 1) : Int)))

/-- Embeds `SubtractSquareGameState.make_move` (lines 106-112): returns a new
state with `current_value - move` and the turn flag flipped; the original
state is untouched (the embedding is purely functional). -/
def make_move (s : SubtractSquareGameState) (move : Int) : SubtractSquareGameState :=
  { p1_turn := !s.p1_turn, current_value := s.current_value - move }

/-- Embeds `GameState.is_valid_move` (lines 58-62), specialised to the
subclass: membership of `move` in `get_possible_moves()`; raises (is `none`)
exactly when `get_possible_moves` raises. -/
def is_valid_move (s : SubtractSquareGameState) (move : Int) : Option Bool :=
  (s.get_possible_moves).map (fun l => decide (move ∈ l))

/-- Every move produced by `get_possible_moves` is at least `1` and at most
`current_value` (each move is a positive square not exceeding the total);
this bounds the recursion in `rough_outcome`. -/
theorem mem_moves_bound {s : SubtractSquareGameState} {ms : List Int}
    (h : s.get_possible_moves = some ms) :
    ∀ m ∈ ms, 1 ≤ m ∧ m ≤ s.current_value := by
  intro m hm
  unfold get_possible_moves at h
  split at h
  · exact absurd h (by simp)
  · rename_i hneg
    rw [Option.some.injEq] at h
    subst h
    rw [List.mem_map] at hm
    obtain ⟨i, hi, rfl⟩ := hm
    rw [List.mem_range] at hi
    have hsq : (i + 1) * (i + 1) ≤ s.current_value.toNat :=
      (le_floor_sqrt (i + 1) s.current_value.toNat).mp hi
    have htn : (s.current_value.toNat : Int) = s.current_value :=
      Int.toNat_of_nonneg (not_lt.mp hneg)
    constructor
    · nlinarith [Int.natCast_nonneg i]
    · calc ((i : Int) + 1) * ((i : Int) + 1) = (((i + 1) * (i + 1) : Nat) : Int) := by
            push_cast; ring
        _ ≤ (s.current_value.toNat : Int) := Int.ofNat_le.mpr hsq
        _ = s.current_value := htn

mutual

/-- Embeds `SubtractSquareGameState.rough_outcome` (lines 121-135):
if `get_possible_moves()` is empty return `LOSE`; otherwise scan the moves in
order and return `WIN` at the first whose successor's `rough_outcome()` is
`LOSE`; otherwise `DRAW`. Raises (is `none`) exactly when `get_possible_moves`
raises, i.e. for negative `current_value`; for the recursive calls the
successor value stays nonnegative, so they never raise. -/
def rough_outcome (s : SubtractSquareGameState) : Option Int :=
  match h : s.get_possible_moves with
  | none => none
  | some ms =>
    if ms = [] then some GameState.LOSE
    else some (outcome_scan s ms (mem_moves_bound h))
termination_by (s.current_value.toNat, 1, 0)
decreasing_by
  refine Prod.Lex.right _ (Prod.Lex.left _ _ ?_)
  omega

/-- Embeds the `for move in self.get_possible_moves()` loop of
`rough_outcome` (lines 130-135): short-circuit scan returning `WIN` at the
first move whose successor evaluates to `LOSE`, else `DRAW` after the loop.
The bound `hl` records that every pending move is a positive square not
exceeding `current_value` (used only for termination). -/
def outcome_scan (s : SubtractSquareGameState) (l : List Int)
    (hl : ∀ m ∈ l, 1 ≤ m ∧ m ≤ s.current_value) : Int :=
  match l with
  | [] => GameState.DRAW
  | m :: rest =>
    if rough_outcome (s.make_move m) = some GameState.LOSE then GameState.WIN
    else outcome_scan s rest (fun x hx => hl x (List.mem_cons_of_mem m hx))
termination_by (s.current_value.toNat, 0, l.length)
decreasing_by
  · have hm := hl m (List.mem_cons_self m rest)
    refine Prod.Lex.left _ _ ?_
    simp only [make_move]
    omega
  · refine Prod.Lex.right _ (Prod.Lex.right _ ?_)
    simp

end

/-- Decimal digit characters of a natural number, most significant digit
first, as produced by Python's `str()` on a nonnegative int (`str(0)` is
`"0"`, no leading zeros otherwise). -/
def nat_to_chars (n : Nat) : List Char :=
  if n = 0 then ['0']
  else ((Nat.digits 10 n).reverse).map (fun d => Char.ofNat (48 + d))

/-- Rendering of a Python int by `str()` / f-string interpolation: a minus
sign followed by the decimal digits for negatives, the decimal digits
otherwise. -/
def int_to_chars (i : Int) : List Char :=
  if i < 0 then '-' :: nat_to_chars (-i).toNat else nat_to_chars i.toNat

/-- Rendering of a Python bool by f-string interpolation: `True` / `False`. -/
def bool_to_chars (b : Bool) : List Char :=
  if b then ['T', 'r', 'u', 'e'] else ['F', 'a', 'l', 's', 'e']

/-- Embeds `SubtractSquareGameState.__repr__` (lines 114-119): the f-string
`SubtractSquareGameState(p1_turn=..., current_value=...)` with the two
fields interpolated. -/
def repr (s : SubtractSquareGameState) : List Char :=
  "SubtractSquareGameState(p1_turn=".toList ++ bool_to_chars s.p1_turn
    ++ ", current_value=".toList ++ int_to_chars s.current_value ++ [')']

/-- Folds `make_move` over a list of moves: the state reached after applying
the moves in order (the driver loop's repeated reassignment, lines 146-154). -/
def apply_moves : SubtractSquareGameState → List Int → SubtractSquareGameState
  | s, [] => s
  | s, m :: rest => apply_moves (s.make_move m) rest

/-- Holds when every move in the list is valid (per `is_valid_move`) for the
state at which it is applied, applying the moves in order. -/
def valid_seq : SubtractSquareGameState → List Int → Bool
  | _, [] => true
  | s, m :: rest =>
    match s.is_valid_move m with
    | some b => b && valid_seq (s.make_move m) rest
    | none => false

end SubtractSquareGameState

/-- Inverse of `nat_to_chars`: reads decimal digit characters back into a
natural number (used to prove the rendering injective). -/
def chars_to_nat (l : List Char) : Nat :=
  Nat.ofDigits 10 ((l.map (fun c => c.toNat - 48)).reverse)

/-- Inverse of `int_to_chars`: a leading minus sign negates the decimal value
of the remaining characters (used to prove the rendering injective). -/
def chars_to_int (l : List Char) : Int :=
  match l with
  | [] => 0
  | c :: rest => if c = '-' then -(chars_to_nat rest : Int) else chars_to_nat (c :: rest)

namespace SubtractSquareGameState

/-- The moves list is defined (no exception) exactly on nonnegative
`current_value`. -/
theorem get_possible_moves_isSome (s : SubtractSquareGameState) :
    (s.get_possible_moves).isSome = true ↔ 0 ≤ s.current_value := by
  unfold get_possible_moves
  split <;> rename_i hc <;> simp <;> omega

/-- Unfolding of the scan loop: it yields `WIN` exactly when some listed move
has a successor whose `rough_outcome` is `LOSE`, and `DRAW` otherwise. -/
theorem outcome_scan_eq (s : SubtractSquareGameState) (l : List Int) :
    ∀ hl, outcome_scan s l hl =
      if l.any (fun m => decide (rough_outcome (s.make_move m) = some GameState.LOSE))
      then GameState.WIN else GameState.DRAW := by
  induction l with
  | nil => intro hl; simp [outcome_scan]
  | cons m rest ih =>
    intro hl
    rw [outcome_scan.eq_def]
    by_cases h : rough_outcome (s.make_move m) = some GameState.LOSE
    · simp [h]
    · simp [h, ih]

/-- Closed-form unfolding of `rough_outcome` on a state whose moves list is
defined. -/
theorem rough_outcome_eq {s : SubtractSquareGameState} {ms : List Int}
    (hms : s.get_possible_moves = some ms) :
    rough_outcome s = some (if ms = [] then GameState.LOSE
      else if ms.any (fun m => decide (rough_outcome (s.make_move m) = some GameState.LOSE))
      then GameState.WIN else GameState.DRAW) := by
  rw [rough_outcome.eq_def]
  split
  · rename_i h; rw [h] at hms; exact absurd hms (by simp)
  · rename_i ms' h
    rw [h] at hms
    injection hms with hms
    subst hms
    split
    · simp
    · rw [outcome_scan_eq]

/-- The recursive outcome estimate is defined (no exception) exactly on
nonnegative `current_value`. -/
theorem rough_outcome_isSome (s : SubtractSquareGameState) :
    (rough_outcome s).isSome = true ↔ 0 ≤ s.current_value := by
  constructor
  · intro h
    by_contra hc
    have h0 : s.get_possible_moves = none := by
      have := (get_possible_moves_isSome s)
      cases hg : s.get_possible_moves with
      | none => rfl
      | some l => rw [hg] at this; simp at this; exact absurd this hc
    rw [rough_outcome.eq_def] at h
    split at h
    · simp at h
    · rename_i ms hms; rw [h0] at hms; exact absurd hms (by simp)
  · intro h
    obtain ⟨ms, hms⟩ := Option.isSome_iff_exists.mp ((get_possible_moves_isSome s).mpr h)
    rw [rough_outcome_eq hms]
    rfl

/-- Moves list at `current_value = 0` is empty, for either player. -/
theorem gm0 (b : Bool) : get_possible_moves ⟨b, (0 : Int)⟩ = some [] := by cases b <;> decide

/-- Moves list at `current_value = 1` is `[1]`, for either player. -/
theorem gm1 (b : Bool) : get_possible_moves ⟨b, (1 : Int)⟩ = some [1] := by cases b <;> decide

/-- Moves list at `current_value = 2` is `[1]`, for either player. -/
theorem gm2 (b : Bool) : get_possible_moves ⟨b, (2 : Int)⟩ = some [1] := by cases b <;> decide

/-- Moves list at `current_value = 3` is `[1]`, for either player. -/
theorem gm3 (b : Bool) : get_possible_moves ⟨b, (3 : Int)⟩ = some [1] := by cases b <;> decide

/-- Outcome at `current_value = 0` is `LOSE`. -/
theorem ro0 (b : Bool) : rough_outcome ⟨b, 0⟩ = some GameState.LOSE := by
  have h := rough_outcome_eq (gm0 b)
  simpa using h

/-- Outcome at `current_value = 1` is `WIN`. -/
theorem ro1 (b : Bool) : rough_outcome ⟨b, 1⟩ = some GameState.WIN := by
  have h := rough_outcome_eq (gm1 b)
  simpa [make_move, ro0] using h

/-- Outcome at `current_value = 2` is `DRAW`. -/
theorem ro2 (b : Bool) : rough_outcome ⟨b, 2⟩ = some GameState.DRAW := by
  have h := rough_outcome_eq (gm2 b)
  simpa [make_move, ro1, show (2 : Int) - 1 = 1 by norm_num,
    GameState.WIN, GameState.LOSE] using h

/-- Outcome at `current_value = 3` is `DRAW`. -/
theorem ro3 (b : Bool) : rough_outcome ⟨b, 3⟩ = some GameState.DRAW := by
  have h := rough_outcome_eq (gm3 b)
  simpa [make_move, ro2, show (3 : Int) - 1 = 2 by norm_num,
    GameState.DRAW, GameState.LOSE] using h

end SubtractSquareGameState

namespace SubtractSquareGameState

/-- Reading a digit character back: the character for digit `d` has code
`48 + d`. -/
theorem digit_char_toNat {d : Nat} (hd : d < 10) : (Char.ofNat (48 + d)).toNat = 48 + d := by
  interval_cases d <;> decide

/-- Reading back the decimal rendering of a natural number recovers it. -/
theorem chars_to_nat_nat_to_chars (n : Nat) : chars_to_nat (nat_to_chars n) = n := by
  unfold nat_to_chars
  split
  · rename_i h; subst h; decide
  · rename_i h
    unfold chars_to_nat
    rw [List.map_map]
    have hmap : ((Nat.digits 10 n).reverse).map
        ((fun c => c.toNat - 48) ∘ (fun d => Char.ofNat (48 + d)))
        = ((Nat.digits 10 n).reverse).map id := by
      apply List.map_congr_left
      intro d hd
      rw [List.mem_reverse] at hd
      have hlt : d < 10 := Nat.digits_lt_base (by norm_num) hd
      simp [Function.comp, digit_char_toNat hlt]
    rw [hmap]
    simp [Nat.ofDigits_digits]

/-- The decimal rendering of a natural number is nonempty and never starts
with a minus sign. -/
theorem nat_to_chars_head (n : Nat) : ∃ c t, nat_to_chars n = c :: t ∧ c ≠ '-' := by
  unfold nat_to_chars
  split
  · exact ⟨'0', [], rfl, by decide⟩
  · rename_i h
    have hne : Nat.digits 10 n ≠ [] := Nat.digits_ne_nil_iff_ne_zero.mpr h
    have hne2 : (Nat.digits 10 n).reverse ≠ [] := by simpa using hne
    obtain ⟨d, ds, hds⟩ := List.exists_cons_of_ne_nil hne2
    have hd : d < 10 := by
      apply Nat.digits_lt_base (by norm_num)
      rw [← List.mem_reverse, hds]
      exact List.mem_cons_self _ _
    refine ⟨Char.ofNat (48 + d), ds.map (fun x => Char.ofNat (48 + x)), by rw [hds]; rfl, ?_⟩
    intro hc
    have h1 := digit_char_toNat hd
    rw [hc] at h1
    have h2 : ('-').toNat = 45 := by decide
    omega

/-- Reading back the rendering of an int recovers it. -/
theorem chars_to_int_int_to_chars (i : Int) : chars_to_int (int_to_chars i) = i := by
  unfold int_to_chars
  split
  · rename_i h
    show chars_to_int ('-' :: nat_to_chars (-i).toNat) = i
    simp only [chars_to_int]
    rw [if_pos trivial, chars_to_nat_nat_to_chars]
    omega
  · rename_i h
    obtain ⟨c, t, hct, hc⟩ := nat_to_chars_head i.toNat
    rw [hct]
    simp only [chars_to_int]
    rw [if_neg hc, ← hct, chars_to_nat_nat_to_chars]
    omega

/-- The rendering of ints is injective: distinct ints render to distinct
character sequences. -/
theorem int_to_chars_inj {i j : Int} (h : int_to_chars i = int_to_chars j) : i = j := by
  have hi := chars_to_int_int_to_chars i
  rw [h, chars_to_int_int_to_chars j] at hi
  omega

end SubtractSquareGameState

namespace SubtractSquareGameState

/-- The turn flag after a sequence of moves: unchanged for an even number of
moves, flipped for an odd number. -/
theorem apply_moves_p1_turn (ms : List Int) : ∀ s : SubtractSquareGameState,
    (apply_moves s ms).p1_turn = if ms.length % 2 = 0 then s.p1_turn else !s.p1_turn := by
  induction ms with
  | nil => intro s; simp [apply_moves]
  | cons m rest ih =>
    intro s
    rw [apply_moves, ih]
    by_cases hp : rest.length % 2 = 0
    · have hq : (rest.length + 1) % 2 ≠ 0 := by omega
      simp [make_move, hp, hq]
    · have hq : (rest.length + 1) % 2 = 0 := by omega
      simp [make_move, hp, hq]

/-- C1: for every state with `current_value ≥ 0`, `rough_outcome()` follows
exactly the implemented algorithm: `LOSE` when `get_possible_moves()` is
empty; otherwise `WIN` exactly when scanning the moves in the order produced
by `get_possible_moves()` finds one whose successor's own `rough_outcome()`
(no sign flip between perspectives) is `LOSE` (`List.any` short-circuits at
the first such move), and `DRAW` when no move qualifies. -/
theorem claim_C1 (s : SubtractSquareGameState) (h : 0 ≤ s.current_value)
    (ms : List Int) (hms : s.get_possible_moves = some ms) :
    rough_outcome s = some (if ms = [] then GameState.LOSE
      else if ms.any (fun m => decide (rough_outcome (s.make_move m) = some GameState.LOSE))
      then GameState.WIN else GameState.DRAW) :=
  rough_outcome_eq hms

/-- Witness for C1 at the state `(p1_turn := True, current_value := 10)`. -/
theorem claim_C1_witness :
    (0 : Int) ≤ (SubtractSquareGameState.mk true 10).current_value ∧
    (SubtractSquareGameState.mk true 10).get_possible_moves = some [1, 4, 9] ∧
    rough_outcome ⟨true, 10⟩ = some (if ([1, 4, 9] : List Int) = [] then GameState.LOSE
      else if ([1, 4, 9] : List Int).any
          (fun m => decide (rough_outcome (make_move ⟨true, 10⟩ m) = some GameState.LOSE))
      then GameState.WIN else GameState.DRAW) :=
  ⟨by decide, by decide, claim_C1 ⟨true, 10⟩ (by decide) [1, 4, 9] (by decide)⟩

/-- C2: for every state with `current_value ≥ 0`, `get_possible_moves()`
returns exactly the strictly ascending list of the perfect squares `k * k`
(`k ≥ 1`) that are `≤ current_value`; in particular it returns `[]` for
`current_value = 0` (no such square exists then). -/
theorem claim_C2 (s : SubtractSquareGameState) (h : 0 ≤ s.current_value) :
    ∃ l, s.get_possible_moves = some l ∧ List.Sorted (· < ·) l ∧
      ∀ m : Int, m ∈ l ↔ ∃ k : Nat, 1 ≤ k ∧ m = (k : Int) * k ∧ m ≤ s.current_value := by
  have hms : s.get_possible_moves = some ((List.range (floor_sqrt s.current_value.toNat)).map
      (fun i : Nat => ((i + 1) * (i + 1) : Int))) := by
    unfold get_possible_moves
    rw [if_neg (not_lt.mpr h)]
  refine ⟨_, hms, ?_, ?_⟩
  · refine List.Pairwise.map _ ?_ (List.pairwise_lt_range _)
    intro a b hab
    have hab' : (a : Int) < b := by exact_mod_cast hab
    nlinarith [Int.natCast_nonneg a]
  · intro m
    constructor
    · intro hm
      have hb := mem_moves_bound hms m hm
      rw [List.mem_map] at hm
      obtain ⟨i, hi, rfl⟩ := hm
      exact ⟨i + 1, by omega, by push_cast; ring, hb.2⟩
    · rintro ⟨k, hk1, rfl, hk2⟩
      rw [List.mem_map]
      have hkk : k * k ≤ s.current_value.toNat := by
        have hcast : ((k * k : Nat) : Int) ≤ ((s.current_value.toNat : Nat) : Int) := by
          push_cast
          rw [Int.toNat_of_nonneg h]
          exact hk2
        exact_mod_cast hcast
      have hk3 := (le_floor_sqrt k s.current_value.toNat).mpr hkk
      refine ⟨k - 1, by rw [List.mem_range]; omega, ?_⟩
      show (((k - 1 : Nat) : Int) + 1) * (((k - 1 : Nat) : Int) + 1) = (k : Int) * k
      have he : ((k - 1 : Nat) : Int) + 1 = (k : Int) := by omega
      rw [he]

/-- Witness for C2 at the state `(p1_turn := True, current_value := 10)`. -/
theorem claim_C2_witness :
    (0 : Int) ≤ (SubtractSquareGameState.mk true 10).current_value ∧
    ∃ l, (SubtractSquareGameState.mk true 10).get_possible_moves = some l ∧
      List.Sorted (· < ·) l ∧
      ∀ m : Int, m ∈ l ↔ ∃ k : Nat, 1 ≤ k ∧ m = (k : Int) * k ∧
        m ≤ (SubtractSquareGameState.mk true 10).current_value :=
  ⟨by decide, claim_C2 ⟨true, 10⟩ (by decide)⟩

/-- C3: applying a valid move subtracts it from `current_value` and flips the
turn flag; the original state is unchanged (the embedding is purely
functional, so `make_move` builds a new value and cannot mutate `s`). -/
theorem claim_C3 (s : SubtractSquareGameState) (m : Int) (ms : List Int)
    (hms : s.get_possible_moves = some ms) (hm : m ∈ ms) :
    (s.make_move m).current_value = s.current_value - m ∧
    (s.make_move m).p1_turn = !s.p1_turn :=
  ⟨rfl, rfl⟩

/-- Witness for C3: move `9` at `(p1_turn := True, current_value := 10)`. -/
theorem claim_C3_witness :
    (SubtractSquareGameState.mk true 10).get_possible_moves = some [1, 4, 9] ∧
    (9 : Int) ∈ ([1, 4, 9] : List Int) ∧
    ((SubtractSquareGameState.mk true 10).make_move 9).current_value
      = (SubtractSquareGameState.mk true 10).current_value - 9 ∧
    ((SubtractSquareGameState.mk true 10).make_move 9).p1_turn
      = !(SubtractSquareGameState.mk true 10).p1_turn :=
  ⟨by decide, by decide, claim_C3 ⟨true, 10⟩ 9 [1, 4, 9] (by decide) (by decide)⟩

/-- C4: the fixed small-position values, regardless of whose turn it is:
`current_value = 0` has no moves and `rough_outcome() = LOSE`;
`current_value = 1` gives `WIN`; `current_value = 2` and `3` give `DRAW`. -/
theorem claim_C4 : ∀ b : Bool,
    get_possible_moves ⟨b, 0⟩ = some [] ∧
    rough_outcome ⟨b, 0⟩ = some GameState.LOSE ∧
    rough_outcome ⟨b, 1⟩ = some GameState.WIN ∧
    rough_outcome ⟨b, 2⟩ = some GameState.DRAW ∧
    rough_outcome ⟨b, 3⟩ = some GameState.DRAW :=
  fun b => ⟨gm0 b, ro0 b, ro1 b, ro2 b, ro3 b⟩

/-- C5: `rough_outcome()` terminates on every state with nonnegative
`current_value` (it is a total function there, `some` result), because every
recursive call is on a successor whose `current_value` is strictly smaller
and still nonnegative — which the second conjunct states for every legal
move. -/
theorem claim_C5 (s : SubtractSquareGameState) (h : 0 ≤ s.current_value) :
    (rough_outcome s).isSome = true ∧
    ∀ ms, s.get_possible_moves = some ms →
      ∀ m ∈ ms, 0 ≤ (s.make_move m).current_value ∧
        (s.make_move m).current_value < s.current_value := by
  refine ⟨(rough_outcome_isSome s).mpr h, ?_⟩
  intro ms hms m hm
  have hb := mem_moves_bound hms m hm
  simp only [make_move]
  omega

/-- Witness for C5 at the state `(p1_turn := True, current_value := 10)`. -/
theorem claim_C5_witness :
    (0 : Int) ≤ (SubtractSquareGameState.mk true 10).current_value ∧
    ((rough_outcome ⟨true, 10⟩).isSome = true ∧
    ∀ ms, (SubtractSquareGameState.mk true 10).get_possible_moves = some ms →
      ∀ m ∈ ms, 0 ≤ ((SubtractSquareGameState.mk true 10).make_move m).current_value ∧
        ((SubtractSquareGameState.mk true 10).make_move m).current_value
          < (SubtractSquareGameState.mk true 10).current_value) :=
  ⟨by decide, claim_C5 ⟨true, 10⟩ (by decide)⟩

/-- C6 counterexample: at `current_value = -1` the call `get_possible_moves()`
raises (modelled `none`) instead of returning the empty sequence, refuting
the claim that every state with `current_value < 1` gets the empty list. -/
theorem claim_C6_counterexample :
    get_possible_moves ⟨true, -1⟩ = none ∧ get_possible_moves ⟨true, -1⟩ ≠ some [] := by
  decide

/-- C6 (amended): for every state with `current_value < 1`,
`get_possible_moves()` returns the empty sequence when `current_value` is
nonnegative (i.e. `current_value = 0`), and raises (returns no list) when
`current_value` is negative. -/
theorem claim_C6 (s : SubtractSquareGameState) (h : s.current_value < 1) :
    s.get_possible_moves = if 0 ≤ s.current_value then some [] else none := by
  rcases lt_or_le s.current_value 0 with hc | hc
  · unfold get_possible_moves
    rw [if_pos hc, if_neg (not_le.mpr hc)]
  · have h0 : s.current_value = 0 := by omega
    unfold get_possible_moves
    rw [h0]
    decide

/-- Witness for C6 (amended) at the state
`(p1_turn := True, current_value := 0)`. -/
theorem claim_C6_witness :
    (SubtractSquareGameState.mk true 0).current_value < 1 ∧
    (SubtractSquareGameState.mk true 0).get_possible_moves
      = if 0 ≤ (SubtractSquareGameState.mk true 0).current_value then some [] else none :=
  ⟨by decide, claim_C6 ⟨true, 0⟩ (by decide)⟩

/-- C7: the canonical form (`__repr__` string) is uniquely determined by the
pair `(p1_turn, current_value)`: two states have equal canonical forms
exactly when both fields agree. -/
theorem claim_C7 (s t : SubtractSquareGameState) :
    s.repr = t.repr ↔ s.p1_turn = t.p1_turn ∧ s.current_value = t.current_value := by
  constructor
  · intro h
    unfold repr at h
    simp only [List.append_assoc] at h
    have h1 := List.append_cancel_left h
    cases hb1 : s.p1_turn <;> cases hb2 : t.p1_turn <;> rw [hb1, hb2] at h1
    · simp only [bool_to_chars, Bool.false_eq_true, if_false] at h1
      have h2 := List.append_cancel_left h1
      have h3 := List.append_cancel_left h2
      have h4 := List.append_cancel_right h3
      exact ⟨rfl, int_to_chars_inj h4⟩
    · simp [bool_to_chars] at h1
    · simp [bool_to_chars] at h1
    · simp only [bool_to_chars, if_true] at h1
      have h2 := List.append_cancel_left h1
      have h3 := List.append_cancel_left h2
      have h4 := List.append_cancel_right h3
      exact ⟨rfl, int_to_chars_inj h4⟩
  · rintro ⟨h1, h2⟩
    unfold repr
    rw [h1, h2]

/-- C8: `make_move` performs no validation: for every integer move, valid or
not, it returns (never raises — it is a total function in the embedding) a
state with `current_value` reduced by exactly the move and the turn flag
flipped; in particular an invalid move can produce a negative
`current_value`, e.g. move `4` at `current_value = 0`. -/
theorem claim_C8 :
    (∀ (s : SubtractSquareGameState) (m : Int),
      (s.make_move m).current_value = s.current_value - m ∧
      (s.make_move m).p1_turn = !s.p1_turn) ∧
    ((SubtractSquareGameState.mk true 0).make_move 4).current_value < 0 :=
  ⟨fun s m => ⟨rfl, rfl⟩, by decide⟩

/-- C9: turn alternation: the flag flips exactly once per move, so from a
state with `p1_turn = True`, after `n` successive valid moves the flag is
`True` exactly when `n` is even. -/
theorem claim_C9 (s : SubtractSquareGameState) (ms : List Int)
    (h1 : s.p1_turn = true) (h2 : valid_seq s ms = true) :
    ((apply_moves s ms).p1_turn = true ↔ ms.length % 2 = 0) := by
  rw [apply_moves_p1_turn, h1]
  by_cases hp : ms.length % 2 = 0 <;> simp [hp]

/-- Witness for C9: the valid sequence `[9, 1]` (length 2, even) from
`(p1_turn := True, current_value := 10)`. -/
theorem claim_C9_witness :
    (SubtractSquareGameState.mk true 10).p1_turn = true ∧
    valid_seq ⟨true, 10⟩ [9, 1] = true ∧
    ((apply_moves ⟨true, 10⟩ [9, 1]).p1_turn = true ↔ ([9, 1] : List Int).length % 2 = 0) :=
  ⟨rfl, by decide, claim_C9 ⟨true, 10⟩ [9, 1] rfl (by decide)⟩

/-- C10: `get_possible_moves()` is total exactly on states with
`current_value ≥ 0`; on every negative `current_value` it raises (`int` of a
complex number) rather than returning a list, and `rough_outcome()` — whose
first step calls it — fails on exactly the same states. -/
theorem claim_C10 (s : SubtractSquareGameState) :
    ((s.get_possible_moves).isSome = true ↔ 0 ≤ s.current_value) ∧
    ((rough_outcome s).isSome = true ↔ 0 ≤ s.current_value) :=
  ⟨get_possible_moves_isSome s, rough_outcome_isSome s⟩

end SubtractSquareGameState
